import Mathlib

/-!
Verification of the Drinfeld module engine of
`src/sage/rings/function_field/drinfeld_modules/drinfeld_module.py`.

A Drinfeld module is represented by its generator, a twisted (Ore)
polynomial over a field `K`, stored as the ordered list of its
coefficients (index = power of the twist `τ`).  The twist is a field
endomorphism `σ : K →+* K` (the `q`-power Frobenius of the source;
kept abstract here, exactly as the source delegates it to the Ore
polynomial ring).  Ore multiplication obeys `τ·λ = σ(λ)·τ`.
-/

set_option maxHeartbeats 1000000
set_option linter.unusedSectionVars false
set_option linter.unnecessarySeqFocus false
set_option linter.unusedVariables false

namespace DrinfeldSpec

variable {K : Type} [Field K] [DecidableEq K]

/-- The `n`-th coefficient of a coefficient list (`0` beyond the end).
This is the semantics of `p[n]` on a Sage Ore polynomial. -/
def coeff (l : List K) (n : ℕ) : K :=
  l.getD n 0

/-- Build the coefficient list of length `m` whose `n`-th entry is `f n`. -/
def ofFn (m : ℕ) (f : ℕ → K) : List K :=
  (List.range m).map f

/-- Drop the trailing (high-degree) zero coefficients.  This is the
normalisation that the Ore polynomial ring applies to any coefficient
list handed to it. -/
def trim (l : List K) : List K :=
  (l.reverse.dropWhile (fun x => decide (x = 0))).reverse

/-- The degree as an integer, `-1` for the zero polynomial
(Sage's `.degree()` on Ore polynomials). -/
def deg (l : List K) : ℤ :=
  ((trim l).length : ℤ) - 1

/-- The degree as a natural number (`0` for the zero polynomial). -/
def natDeg (l : List K) : ℕ :=
  (trim l).length - 1

/-- The leading coefficient (`0` for the zero polynomial). -/
def leadCoeff (l : List K) : K :=
  coeff l (natDeg l)

/-- Test for the zero Ore polynomial (the source's `p == 0`). -/
def isZero (l : List K) : Bool :=
  l.all (fun x => decide (x = 0))

/-- The valuation: index of the first nonzero coefficient
(the source's `p.valuation()`; meaningful for nonzero `p`). -/
def valuation (l : List K) : ℕ :=
  l.findIdx (fun x => decide (x ≠ 0))

/-- Equality of Ore polynomials: equality of all coefficients. -/
def coeffEq (a b : List K) : Prop :=
  ∀ n, coeff a n = coeff b n

theorem coeff_nil (n : ℕ) : coeff ([] : List K) n = 0 := by
  simp [coeff]

theorem coeff_eq_zero_of_le (l : List K) (n : ℕ) (h : l.length ≤ n) :
    coeff l n = 0 := by
  simp [coeff, List.getElem?_eq_none h]

theorem coeff_eq_getElem (l : List K) (n : ℕ) (h : n < l.length) :
    coeff l n = l[n] := by
  simp [coeff, List.getElem?_eq_getElem h]

theorem coeff_ofFn (m : ℕ) (f : ℕ → K) (n : ℕ) :
    coeff (ofFn m f) n = if n < m then f n else 0 := by
  by_cases h : n < m
  · have hlen : n < (ofFn m f).length := by
      simpa [ofFn] using h
    rw [coeff_eq_getElem _ _ hlen]
    simp [ofFn, h]
  · have hlen : (ofFn m f).length ≤ n := by
      simp only [ofFn, List.length_map, List.length_range]; omega
    simp [coeff_eq_zero_of_le _ _ hlen, h]

theorem trim_nil : trim ([] : List K) = [] := rfl

theorem trim_concat_zero (l : List K) : trim (l ++ [0]) = trim l := by
  simp [trim, List.dropWhile_cons]

theorem trim_concat_ne (l : List K) (a : K) (ha : a ≠ 0) :
    trim (l ++ [a]) = l ++ [a] := by
  simp [trim, List.dropWhile_cons, ha]

theorem coeff_concat_zero (l : List K) (n : ℕ) :
    coeff (l ++ [0]) n = coeff l n := by
  rcases lt_trichotomy n l.length with h | h | h
  · simp [coeff, List.getElem?_append_left h]
  · rw [h]
    have h1 : l.length ≤ l.length := le_refl _
    rw [coeff, List.getD_eq_getElem?_getD, List.getElem?_append_right h1]
    simp [coeff_eq_zero_of_le l l.length h1]
  · have h1 : l.length ≤ n := le_of_lt h
    have h2 : (l ++ [(0 : K)]).length ≤ n := by
      simp only [List.length_append, List.length_singleton]; omega
    simp [coeff_eq_zero_of_le _ _ h2, coeff_eq_zero_of_le _ _ h1]

theorem coeff_trim (l : List K) (n : ℕ) : coeff (trim l) n = coeff l n := by
  induction l using List.reverseRecOn with
  | nil => rfl
  | append_singleton l a ih =>
    by_cases ha : a = 0
    · subst ha
      rw [trim_concat_zero, coeff_concat_zero, ih]
    · rw [trim_concat_ne l a ha]

theorem trim_getLast_ne_zero (l : List K) (h : trim l ≠ []) :
    (trim l).getLast h ≠ 0 := by
  induction l using List.reverseRecOn with
  | nil => exact absurd rfl h
  | append_singleton l a ih =>
    by_cases ha : a = 0
    · subst ha
      have h' : trim l ≠ [] := by
        intro hc
        exact h (by rw [trim_concat_zero, hc])
      have : (trim (l ++ [0])).getLast h = (trim l).getLast h' := by
        congr 1 <;> rw [trim_concat_zero]
      rw [this]
      exact ih h'
    · have he : trim (l ++ [a]) = l ++ [a] := trim_concat_ne l a ha
      have : (trim (l ++ [a])).getLast h = (l ++ [a]).getLast (by simp) := by
        congr 1
      rw [this, List.getLast_concat]
      exact ha

theorem trim_length_le (l : List K) : (trim l).length ≤ l.length := by
  have := (List.dropWhile_sublist (l := l.reverse)
    (p := fun x => decide (x = 0))).length_le
  simpa [trim] using this

theorem coeff_last_trim (l : List K) (h : trim l ≠ []) :
    coeff l ((trim l).length - 1) ≠ 0 := by
  rw [← coeff_trim]
  have hlen : (trim l).length - 1 < (trim l).length := by
    cases hn : (trim l).length with
    | zero => exact absurd (List.length_eq_zero.mp hn) h
    | succ k => omega
  rw [coeff_eq_getElem _ _ hlen, ← List.getLast_eq_getElem]
  exact trim_getLast_ne_zero l h

theorem coeff_eq_zero_of_natDeg_lt (l : List K) (n : ℕ)
    (h : (trim l).length ≤ n) : coeff l n = 0 := by
  rw [← coeff_trim]
  exact coeff_eq_zero_of_le _ _ h

theorem trim_eq_nil_iff (l : List K) : trim l = [] ↔ ∀ n, coeff l n = 0 := by
  constructor
  · intro h n
    apply coeff_eq_zero_of_natDeg_lt
    rw [h]; exact Nat.zero_le _
  · intro h
    by_contra hne
    exact coeff_last_trim l hne (h _)

theorem isZero_iff (l : List K) : isZero l = true ↔ ∀ n, coeff l n = 0 := by
  constructor
  · intro h n
    by_cases hn : n < l.length
    · have hmem : l[n] ∈ l := List.getElem_mem hn
      have := List.all_eq_true.mp h l[n] hmem
      rw [coeff_eq_getElem _ _ hn]
      simpa using this
    · exact coeff_eq_zero_of_le _ _ (le_of_not_lt hn)
  · intro h
    apply List.all_eq_true.mpr
    intro x hx
    rcases List.mem_iff_getElem.mp hx with ⟨n, hn, rfl⟩
    have := h n
    rw [coeff_eq_getElem _ _ hn] at this
    simpa using this

theorem isZero_eq_false_iff (l : List K) :
    isZero l = false ↔ trim l ≠ [] := by
  rw [← Bool.not_eq_true, not_iff_not, isZero_iff, ← trim_eq_nil_iff]

theorem deg_neg_of_trim_nil (l : List K) (h : trim l = []) : deg l = -1 := by
  simp [deg, h]

theorem deg_nonneg_of_not_isZero (l : List K) (h : isZero l = false) :
    0 ≤ deg l := by
  have hne := (isZero_eq_false_iff l).mp h
  have : 1 ≤ (trim l).length := by
    cases hn : (trim l).length with
    | zero => exact absurd (List.length_eq_zero.mp hn) hne
    | succ k => omega
  simp only [deg]
  omega

theorem deg_eq_natDeg (l : List K) (h : trim l ≠ []) :
    deg l = (natDeg l : ℤ) := by
  have : 1 ≤ (trim l).length := by
    cases hn : (trim l).length with
    | zero => exact absurd (List.length_eq_zero.mp hn) h
    | succ k => omega
  simp only [deg, natDeg]
  omega

theorem leadCoeff_ne_zero (l : List K) (h : isZero l = false) :
    leadCoeff l ≠ 0 := by
  have hne := (isZero_eq_false_iff l).mp h
  simpa [leadCoeff, natDeg] using coeff_last_trim l hne

theorem deg_le_of_coeff_eq_zero (l : List K) (d : ℕ)
    (h : ∀ k, d ≤ k → coeff l k = 0) : deg l ≤ (d : ℤ) - 1 := by
  have hlen : (trim l).length ≤ d := by
    by_contra hc
    push_neg at hc
    have h1 : trim l ≠ [] := by
      intro hnil
      rw [hnil] at hc
      simp at hc
    have h2 : d ≤ (trim l).length - 1 := by omega
    exact coeff_last_trim l h1 (h _ h2)
  have hcast : ((trim l).length : ℤ) ≤ (d : ℤ) := by exact_mod_cast hlen
  unfold deg
  omega

/-! ### The twist and Ore ring operations

Modelled from the spec: the Ore polynomial arithmetic lives in
`sage.rings.polynomial.ore_polynomial_element`, outside the given
source file.  The spec defines addition coefficient-wise,
multiplication by `(Σ a_i τ^i)(Σ b_j τ^j) = Σ_i Σ_j a_i σ^i(b_j) τ^(i+j)`,
and right Euclidean division by repeated elimination of the leading
term of the running remainder. -/

/-- Iterate the twist: `twistIter σ n x = σ^n(x)` (the spec's
`frobenius_power`). -/
def twistIter (σ : K →+* K) : ℕ → K → K
  | 0, x => x
  | n + 1, x => σ (twistIter σ n x)

theorem twistIter_zero (σ : K →+* K) (n : ℕ) : twistIter σ n 0 = 0 := by
  induction n with
  | zero => rfl
  | succ n ih => simp [twistIter, ih]

theorem twistIter_ne_zero (σ : K →+* K) (n : ℕ) (x : K) (hx : x ≠ 0) :
    twistIter σ n x ≠ 0 := by
  induction n with
  | zero => exact hx
  | succ n ih =>
    show σ (twistIter σ n x) ≠ 0
    have h1 : σ (twistIter σ n x) * σ (twistIter σ n x)⁻¹ = 1 := by
      rw [← map_mul, mul_inv_cancel₀ ih, map_one]
    exact left_ne_zero_of_mul_eq_one h1

/-- Coefficient-wise sum of two Ore polynomials (spec §4.1 Addition). -/
def oreAdd (a b : List K) : List K :=
  ofFn (max a.length b.length) (fun n => coeff a n + coeff b n)

/-- Coefficient-wise difference of two Ore polynomials. -/
def oreSub (a b : List K) : List K :=
  ofFn (max a.length b.length) (fun n => coeff a n - coeff b n)

theorem coeff_oreAdd (a b : List K) (n : ℕ) :
    coeff (oreAdd a b) n = coeff a n + coeff b n := by
  rw [oreAdd, coeff_ofFn]
  by_cases h : n < max a.length b.length
  · simp [h]
  · push_neg at h
    have ha : a.length ≤ n := le_trans (le_max_left _ _) h
    have hb : b.length ≤ n := le_trans (le_max_right _ _) h
    simp [if_neg (not_lt.mpr h), coeff_eq_zero_of_le _ _ ha,
      coeff_eq_zero_of_le _ _ hb]

theorem coeff_oreSub (a b : List K) (n : ℕ) :
    coeff (oreSub a b) n = coeff a n - coeff b n := by
  rw [oreSub, coeff_ofFn]
  by_cases h : n < max a.length b.length
  · simp [h]
  · push_neg at h
    have ha : a.length ≤ n := le_trans (le_max_left _ _) h
    have hb : b.length ≤ n := le_trans (le_max_right _ _) h
    simp [if_neg (not_lt.mpr h), coeff_eq_zero_of_le _ _ ha,
      coeff_eq_zero_of_le _ _ hb]

/-- The `n`-th coefficient of the Ore product
`(Σ a_i τ^i)(Σ b_j τ^j) = Σ_i Σ_j a_i σ^i(b_j) τ^(i+j)` (spec §4.1). -/
def oreMulCoeff (σ : K →+* K) (a b : List K) (n : ℕ) : K :=
  ∑ i ∈ Finset.range (n + 1), coeff a i * twistIter σ i (coeff b (n - i))

/-- Ore multiplication with the twist rule `τ·λ = σ(λ)·τ` (spec §4.1). -/
def oreMul (σ : K →+* K) (a b : List K) : List K :=
  ofFn (a.length + b.length) (oreMulCoeff σ a b)

theorem oreMulCoeff_eq_zero (σ : K →+* K) (a b : List K) (n : ℕ)
    (h : a.length + b.length ≤ n) : oreMulCoeff σ a b n = 0 := by
  apply Finset.sum_eq_zero
  intro i hi
  rw [Finset.mem_range] at hi
  by_cases hia : i < a.length
  · have hb : b.length ≤ n - i := by omega
    rw [coeff_eq_zero_of_le b _ hb, twistIter_zero, mul_zero]
  · rw [coeff_eq_zero_of_le a _ (le_of_not_lt hia), zero_mul]

theorem coeff_oreMul (σ : K →+* K) (a b : List K) (n : ℕ) :
    coeff (oreMul σ a b) n = oreMulCoeff σ a b n := by
  rw [oreMul, coeff_ofFn]
  by_cases h : n < a.length + b.length
  · simp [h]
  · rw [if_neg h, oreMulCoeff_eq_zero σ a b n (le_of_not_lt h)]

theorem oreMulCoeff_add_left (σ : K →+* K) (a a' b : List K) (n : ℕ) :
    oreMulCoeff σ (oreAdd a a') b n =
      oreMulCoeff σ a b n + oreMulCoeff σ a' b n := by
  rw [oreMulCoeff, oreMulCoeff, oreMulCoeff, ← Finset.sum_add_distrib]
  apply Finset.sum_congr rfl
  intro i _
  rw [coeff_oreAdd, add_mul]

/-- The Ore monomial `c·τ^d` as a coefficient list. -/
def monomial (c : K) (d : ℕ) : List K :=
  ofFn (d + 1) (fun i => if i = d then c else 0)

theorem coeff_monomial (c : K) (d n : ℕ) :
    coeff (monomial c d) n = if n = d then c else 0 := by
  rw [monomial, coeff_ofFn]
  by_cases h : n < d + 1
  · simp [h]
  · have : ¬ n = d := by omega
    simp [h, this]

/-- The product `c·τ^d·B`, materialised directly: the coefficient at
`τ^k` is `c·σ^d(B_(k-d))` for `k ≥ d` (spec §4.1 division step). -/
def monomialMul (σ : K →+* K) (c : K) (d : ℕ) (b : List K) : List K :=
  ofFn (d + b.length)
    (fun n => if n < d then 0 else c * twistIter σ d (coeff b (n - d)))

theorem coeff_monomialMul (σ : K →+* K) (c : K) (d : ℕ) (b : List K) (n : ℕ) :
    coeff (monomialMul σ c d b) n =
      if n < d then 0 else c * twistIter σ d (coeff b (n - d)) := by
  rw [monomialMul, coeff_ofFn]
  by_cases h : n < d + b.length
  · simp [h]
  · rw [if_neg h]
    have hd : ¬ n < d := by omega
    rw [if_neg hd]
    have hb : b.length ≤ n - d := by omega
    rw [coeff_eq_zero_of_le b _ hb, twistIter_zero, mul_zero]

theorem oreMulCoeff_monomial (σ : K →+* K) (c : K) (d : ℕ) (b : List K)
    (n : ℕ) : oreMulCoeff σ (monomial c d) b n =
      coeff (monomialMul σ c d b) n := by
  rw [coeff_monomialMul, oreMulCoeff]
  have hterm : ∀ i ∈ Finset.range (n + 1),
      coeff (monomial c d) i * twistIter σ i (coeff b (n - i)) =
        if i = d then c * twistIter σ d (coeff b (n - d)) else 0 := by
    intro i _
    rw [coeff_monomial]
    by_cases hid : i = d
    · subst hid
      simp
    · simp [hid]
  rw [Finset.sum_congr rfl hterm, Finset.sum_ite_eq' (Finset.range (n + 1))]
  by_cases hd : d ≤ n
  · rw [if_pos (Finset.mem_range.mpr (by omega)), if_neg (by omega)]
  · rw [if_neg (by rw [Finset.mem_range]; omega), if_pos (by omega)]

theorem oreMulCoeff_nil (σ : K →+* K) (b : List K) (n : ℕ) :
    oreMulCoeff σ [] b n = 0 := by
  apply Finset.sum_eq_zero
  intro i _
  rw [coeff_nil, zero_mul]

theorem trim_ne_nil_of_deg_nonneg (l : List K) (h : 0 ≤ deg l) :
    trim l ≠ [] := by
  intro hnil
  rw [deg, hnil] at h
  simp at h

theorem trim_length_eq (l : List K) (h : trim l ≠ []) :
    (trim l).length = natDeg l + 1 := by
  have : 1 ≤ (trim l).length := by
    cases hn : (trim l).length with
    | zero => exact absurd (List.length_eq_zero.mp hn) h
    | succ k => omega
  simp only [natDeg]
  omega

/-! ### Right Euclidean division

Modelled from the spec (§4.1): `A = Q·B + R` with `deg R < deg B`, for
`B ≠ 0`, computed by eliminating the leading term of the running
remainder with the monomial `c·τ^(n-m)` where
`c = lead(A) / σ^(n-m)(lead(B))`.  This is the algorithm of
`OrePolynomial.right_quo_rem`, which is outside the given source file. -/

/-- The coefficient of the elimination monomial: `lead(A)` divided by
`σ^(deg A - deg B)` applied to `lead(B)`. -/
def divCoeff (σ : K →+* K) (B A : List K) : K :=
  leadCoeff A / twistIter σ (natDeg A - natDeg B) (leadCoeff B)

/-- One elimination step of the division: subtract the monomial
multiple of `B` that cancels the leading term of `A`. -/
def divStep (σ : K →+* K) (B A : List K) : List K :=
  oreSub A (monomialMul σ (divCoeff σ B A) (natDeg A - natDeg B) B)

/-- Fuel-indexed division loop; the fuel bounds the degree of the
running remainder. -/
def rightQuoRemAux (σ : K →+* K) (B : List K) : ℕ → List K → List K × List K
  | 0, A => ([], A)
  | fuel + 1, A =>
    if deg A < deg B then ([], A)
    else
      (oreAdd (rightQuoRemAux σ B fuel (divStep σ B A)).1
        (monomial (divCoeff σ B A) (natDeg A - natDeg B)),
       (rightQuoRemAux σ B fuel (divStep σ B A)).2)

/-- Right Euclidean division `A = Q·B + R`, `deg R < deg B` (for `B ≠ 0`). -/
def rightQuoRem (σ : K →+* K) (A B : List K) : List K × List K :=
  rightQuoRemAux σ B (A.length + 1) A

theorem divStep_coeff_eq_zero (σ : K →+* K) (B : List K)
    (hB : isZero B = false) (A : List K) (hge : deg B ≤ deg A) (k : ℕ)
    (hk : natDeg A ≤ k) :
    coeff (oreSub A (monomialMul σ
      (leadCoeff A / twistIter σ (natDeg A - natDeg B) (leadCoeff B))
      (natDeg A - natDeg B) B)) k = 0 := by
  have hBne : trim B ≠ [] := (isZero_eq_false_iff B).mp hB
  have hBpos : 0 ≤ deg B := deg_nonneg_of_not_isZero B hB
  have hAne : trim A ≠ [] := trim_ne_nil_of_deg_nonneg A (le_trans hBpos hge)
  have hmn : natDeg B ≤ natDeg A := by
    rw [deg_eq_natDeg A hAne, deg_eq_natDeg B hBne] at hge
    exact_mod_cast hge
  set n := natDeg A with hn
  set m := natDeg B with hm
  rw [coeff_oreSub, coeff_monomialMul]
  rcases eq_or_lt_of_le hk with hkn | hkn
  · -- at index n the leading term cancels by the choice of c
    rw [← hkn, if_neg (by omega)]
    have hsub : n - (n - m) = m := by omega
    rw [hsub]
    have htw : twistIter σ (n - m) (leadCoeff B) ≠ 0 :=
      twistIter_ne_zero σ _ _ (leadCoeff_ne_zero B hB)
    have hlB : coeff B m = leadCoeff B := rfl
    rw [hlB, div_mul_cancel₀ _ htw]
    have hA : coeff A n = leadCoeff A := rfl
    rw [hA, sub_self]
  · -- above index n both sides vanish
    have hA : coeff A k = 0 := by
      apply coeff_eq_zero_of_natDeg_lt
      rw [trim_length_eq A hAne, ← hn]
      omega
    rw [hA]
    by_cases hlow : k < n - m
    · rw [if_pos hlow, sub_zero]
    · rw [if_neg hlow]
      have hBk : coeff B (k - (n - m)) = 0 := by
        apply coeff_eq_zero_of_natDeg_lt
        rw [trim_length_eq B hBne, ← hm]
        omega
      rw [hBk, twistIter_zero, mul_zero, sub_zero]

theorem divStep_deg_lt (σ : K →+* K) (B : List K) (hB : isZero B = false)
    (A : List K) (hge : deg B ≤ deg A) :
    deg (divStep σ B A) < deg A := by
  have hBpos : 0 ≤ deg B := deg_nonneg_of_not_isZero B hB
  have hAne : trim A ≠ [] := trim_ne_nil_of_deg_nonneg A (le_trans hBpos hge)
  have h1 : deg (divStep σ B A) ≤ (natDeg A : ℤ) - 1 :=
    deg_le_of_coeff_eq_zero _ _
      (fun k hk => divStep_coeff_eq_zero σ B hB A hge k hk)
  have h2 : deg A = (natDeg A : ℤ) := deg_eq_natDeg A hAne
  omega

theorem rightQuoRemAux_spec (σ : K →+* K) (B : List K)
    (hB : isZero B = false) :
    ∀ (fuel : ℕ) (A : List K), deg A < (fuel : ℤ) →
      (∀ k, coeff A k =
          oreMulCoeff σ (rightQuoRemAux σ B fuel A).1 B k +
            coeff (rightQuoRemAux σ B fuel A).2 k) ∧
        deg (rightQuoRemAux σ B fuel A).2 < deg B := by
  intro fuel
  induction fuel with
  | zero =>
    intro A hA
    have hBpos : 0 ≤ deg B := deg_nonneg_of_not_isZero B hB
    push_cast at hA
    constructor
    · intro k
      show coeff A k = oreMulCoeff σ [] B k + coeff A k
      rw [oreMulCoeff_nil, zero_add]
    · show deg A < deg B
      omega
  | succ fuel ih =>
    intro A hA
    by_cases hlt : deg A < deg B
    · have hunf : rightQuoRemAux σ B (fuel + 1) A = ([], A) := by
        rw [rightQuoRemAux, if_pos hlt]
      rw [hunf]
      constructor
      · intro k
        show coeff A k = oreMulCoeff σ [] B k + coeff A k
        rw [oreMulCoeff_nil, zero_add]
      · exact hlt
    · have hge : deg B ≤ deg A := le_of_not_lt hlt
      have hA' : deg (divStep σ B A) < (fuel : ℤ) := by
        have hstep := divStep_deg_lt σ B hB A hge
        push_cast at hA
        omega
      obtain ⟨ihc, ihd⟩ := ih (divStep σ B A) hA'
      have hunf : rightQuoRemAux σ B (fuel + 1) A =
          (oreAdd (rightQuoRemAux σ B fuel (divStep σ B A)).1
            (monomial (divCoeff σ B A) (natDeg A - natDeg B)),
           (rightQuoRemAux σ B fuel (divStep σ B A)).2) := by
        rw [rightQuoRemAux, if_neg hlt]
      rw [hunf]
      constructor
      · intro k
        show coeff A k =
          oreMulCoeff σ (oreAdd (rightQuoRemAux σ B fuel (divStep σ B A)).1
            (monomial (divCoeff σ B A) (natDeg A - natDeg B))) B k +
          coeff (rightQuoRemAux σ B fuel (divStep σ B A)).2 k
        rw [oreMulCoeff_add_left, oreMulCoeff_monomial]
        have hsub : coeff (divStep σ B A) k =
            coeff A k -
              coeff (monomialMul σ (divCoeff σ B A)
                (natDeg A - natDeg B) B) k :=
          coeff_oreSub A _ k
        have hIH := ihc k
        linear_combination hIH - hsub
      · exact ihd

theorem rightQuoRem_spec (σ : K →+* K) (A B : List K)
    (hB : isZero B = false) :
    (∀ k, coeff A k =
        oreMulCoeff σ (rightQuoRem σ A B).1 B k +
          coeff (rightQuoRem σ A B).2 k) ∧
      deg (rightQuoRem σ A B).2 < deg B := by
  apply rightQuoRemAux_spec σ B hB (A.length + 1) A
  have h1 : (trim A).length ≤ A.length := trim_length_le A
  unfold deg
  push_cast
  omega

/-! ### Drinfeld modules: construction and accessors -/

/-- Validity of a stored generator, as established by the constructor
`DrinfeldModule.__classcall_private__`: the coefficient list is
normalised by the Ore ring (no trailing zeros), the degree — the rank —
is at least 1, and the constant coefficient `γ(T)` is nonzero. -/
def ValidGen (g : List K) : Prop :=
  trim g = g ∧ 2 ≤ g.length ∧ coeff g 0 ≠ 0

instance (g : List K) : Decidable (ValidGen g) := by
  unfold ValidGen
  infer_instance

/-- Construction errors of `__classcall_private__` (the spec's
`InvalidGenerator` cases relevant to a coefficient-list input). -/
inductive GenErr where
  | zeroConstant : GenErr
  | nonPositiveDegree : GenErr
deriving DecidableEq

/-- Embedding of `DrinfeldModule.__classcall_private__` on a
coefficient-list input (lines 577-608): the constant coefficient is
checked first (line 578), the list is then cast into the Ore
polynomial ring — which normalises away trailing zeros (line 606) —
and the resulting degree must be positive (line 607). -/
def mkDrinfeldModule (gen : List K) : Except GenErr (List K) :=
  if coeff gen 0 = 0 then .error .zeroConstant
  else if natDeg gen = 0 then .error .nonPositiveDegree
  else .ok (trim gen)

/-- Failure of `DrinfeldModule.coefficient` (the source raises
`ValueError('input must be >= 0 and <= rank')`; the spec calls this
condition `IndexError`). -/
inductive CoeffErr where
  | outOfRange : CoeffErr
deriving DecidableEq

/-- Embedding of `DrinfeldModule.coefficient` (lines 1090-1124): the
`n`-th coefficient of the generator when `0 ≤ n ≤ rank`, an error
otherwise. -/
def coefficient (g : List K) (n : ℤ) : Except CoeffErr K :=
  if 0 ≤ n ∧ n ≤ (natDeg g : ℤ) then .ok (coeff g n.toNat)
  else .error .outOfRange

/-! ### The Vélu isogeny construction -/

/-- Isogeny-test failure (spec `NotAnIsogeny`; the source raises
`ValueError('the input does not define an isogeny')`). -/
inductive IsogenyErr where
  | notAnIsogeny : IsogenyErr
deriving DecidableEq

/-- Embedding of `DrinfeldModule.velu` (lines 1666-1678).  `charDeg`
is the degree of the characteristic, obtained from the category
(`self.characteristic().degree()`, outside the given source file).
On success the result is the generator of the codomain module. -/
def velu (σ : K →+* K) (charDeg : ℕ) (g f : List K) :
    Except IsogenyErr (List K) :=
  if isZero f then .error .notAnIsogeny
  else if ¬ charDeg ∣ valuation f ∨
      isZero (rightQuoRem σ (oreMul σ f g) f).2 = false then
    .error .notAnIsogeny
  else .ok (rightQuoRem σ (oreMul σ f g) f).1

/-! ### The basic j-invariant engine -/

/-- gcd of a list of naturals (Sage's `gcd(p)` on an integer vector). -/
def gcdList (l : List ℕ) : ℕ :=
  l.foldr Nat.gcd 0

/-- The left side of the weight-0 equation: `Σ_i d_i (q^(k_i) - 1)`. -/
def weightSum (q : ℕ) (ks ds : List ℕ) : ℕ :=
  ∑ i ∈ Finset.range ks.length, ds.getD i 0 * (q ^ ks.getD i 0 - 1)

/-- All lists `ds` with `ds[i] ≤ bs[i]` componentwise: the integer
points of the box part of the parameter polytope. -/
def enumBox : List ℕ → List (List ℕ)
  | [] => [[]]
  | b :: bs =>
    ((List.range (b + 1)).map (fun d => (enumBox bs).map (fun ds => d :: ds))).flatten

/-- Modelled from the spec: the polytope integral-point enumeration of
`basic_j_invariant_parameters` (lines 1024-1051).  The polytope is cut
out by the equation `Σ_i d_i (q^(k_i) - 1) = d_r (q^r - 1)`, the lower
bounds `0 ≤ d_i` and the upper bounds
`d_i ≤ (q^r - 1)/(q^gcd(k_i, r) - 1)` for the box variables; the
external `Polyhedron.integral_points` collaborator returns exactly the
integer points satisfying these constraints, and the source then keeps
the points with `gcd = 1`. -/
def basicJParams (q r : ℕ) (ks : List ℕ) : List (List ℕ × List ℕ) :=
  (enumBox (ks.map (fun k => (q ^ r - 1) / (q ^ Nat.gcd k r - 1)))).filterMap
    (fun ds =>
      if (q ^ r - 1) ∣ weightSum q ks ds then
        if gcdList (ds ++ [weightSum q ks ds / (q ^ r - 1)]) = 1 then
          some (ks, ds ++ [weightSum q ks ds / (q ^ r - 1)])
        else none
      else none)

/-- Embedding of `DrinfeldModule.basic_j_invariant_parameters`
(lines 890-1051) with `coeff_indices = None`: the indices are all of
`1..r-1`, restricted to those with a nonzero generator coefficient
when the `nonzero` flag is set (lines 1001-1006). -/
def basic_j_invariant_parameters (q : ℕ) (g : List K) (nonzero : Bool) :
    List (List ℕ × List ℕ) :=
  let r := natDeg g
  let ks := if nonzero then
      (List.range' 1 (r - 1)).filter (fun k => decide (coeff g k ≠ 0))
    else List.range' 1 (r - 1)
  basicJParams q r ks

/-- Parameter of `j_invariant`: `None`, an integer, or a pair of
tuples, matching the accepted Python inputs. -/
inductive JParam where
  | noParam : JParam
  | intParam (k : ℕ) : JParam
  | tupParam (ks : List ℕ) (ds : List ℕ) : JParam

/-- Failures of `j_invariant` (`TypeError` / `ValueError` raises). -/
inductive JErr where
  | typeError : JErr
  | valueError : JErr
deriving DecidableEq

/-- Embedding of `DrinfeldModule.j_invariant` (lines 1314-1521);
`q` is `self._Fq.order()`, `r` the rank, and exponents are naturals. -/
def j_invariant (q : ℕ) (g : List K) (param : JParam) (check : Bool) :
    Except JErr K :=
  let r := natDeg g
  match param with
  | .noParam =>
    if r ≠ 2 then .error .typeError
    else .ok (coeff g 1 ^ (q + 1) / coeff g 2)
  | .intParam k =>
    if k = 0 ∨ r ≤ k then .error .valueError
    else .ok (coeff g k ^ ((q ^ r - 1) / (q ^ Nat.gcd k r - 1)) /
      coeff g r ^ ((q ^ k - 1) / (q ^ Nat.gcd k r - 1)))
  | .tupParam ks ds =>
    if ¬ (ks.length < r ∧ ds.length = ks.length + 1) then .error .valueError
    else if check = true ∧
        weightSum q ks ds ≠ ds.getD ks.length 0 * (q ^ r - 1) then
      .error .valueError
    else .ok ((∏ i ∈ Finset.range ks.length,
        coeff g (ks.getD i 0) ^ ds.getD i 0) /
      coeff g r ^ ds.getD ks.length 0)

instance {ε α : Type} [DecidableEq ε] [DecidableEq α] :
    DecidableEq (Except ε α) := fun a b =>
  match a, b with
  | .ok x, .ok y => decidable_of_iff (x = y) (by simp)
  | .error e, .error e' => decidable_of_iff (e = e') (by simp)
  | .ok _, .error _ => .isFalse (by simp)
  | .error _, .ok _ => .isFalse (by simp)

/-- Zero-pattern comparison of two coefficient lists (the source's
`bool(g_self) == bool(g_psi)` zip test, lines 1303-1304). -/
def patternEq (g h : List K) : Bool :=
  (g.zip h).all (fun p => decide ((p.1 = 0) ↔ (p.2 = 0)))

/-- Embedding of `DrinfeldModule.is_isomorphic` (lines 1268-1312). -/
def is_isomorphic (q : ℕ) (g h : List K) : Bool :=
  if g = h then true
  else if natDeg g ≠ natDeg h then false
  else if natDeg g = 1 then true
  else if patternEq g h = false then false
  else (basic_j_invariant_parameters q g true).all
    (fun p => decide (j_invariant q g (.tupParam p.1 p.2) false =
      j_invariant q h (.tupParam p.1 p.2) false))

/-! ### Height -/

/-- Ore power `g^i` by iterated multiplication. -/
def orePow (σ : K →+* K) (g : List K) : ℕ → List K
  | 0 => [1]
  | i + 1 => oreMul σ (orePow σ g i) g

/-- Embedding of evaluation `phi(a)` (the `__call__` of line 666,
delegated to the ring-homomorphism collaborator): `Σ_i γ(a_i)·g^i`,
the function-ring element `a` being given through the γ-images of its
coefficients. -/
def phiEval (σ : K →+* K) (g a : List K) : List K :=
  (List.range a.length).foldr
    (fun i acc => oreAdd ((orePow σ g i).map (fun x => coeff a i * x)) acc) []

/-- Failure of `height` when the module has generic characteristic
(spec `HeightUndefined`). -/
inductive HeightErr where
  | heightUndefined : HeightErr
deriving DecidableEq

/-- Embedding of `DrinfeldModule.height` (lines 1235-1243).  The
characteristic comes from the category (`self.characteristic()`, not
in the given source file): `none` models the generic-characteristic
case, in which the source raises.  Note the floor division `//` of
line 1241. -/
def height (σ : K →+* K) (g : List K) (char : Option (List K)) :
    Except HeightErr ℕ :=
  match char with
  | none => .error .heightUndefined
  | some p => .ok (valuation (phiEval σ g p) / natDeg p)

/-! ### A concrete constant field for witnesses

The field with two elements, with structural (kernel-computable)
arithmetic; over it the `q = 2` Frobenius is the identity map. -/

inductive F2 where
  | z : F2
  | o : F2
deriving DecidableEq, Fintype

def F2.add : F2 → F2 → F2
  | .z, x => x
  | .o, .z => .o
  | .o, .o => .z

def F2.mul : F2 → F2 → F2
  | .z, _ => .z
  | .o, x => x

instance : Zero F2 := ⟨F2.z⟩
instance : One F2 := ⟨F2.o⟩
instance : Add F2 := ⟨F2.add⟩
instance : Mul F2 := ⟨F2.mul⟩
instance : Neg F2 := ⟨fun x => x⟩
instance : Inv F2 := ⟨fun x => x⟩

instance : CommRing F2 where
  add_assoc := by decide
  zero_add := by decide
  add_zero := by decide
  add_comm := by decide
  mul_assoc := by decide
  one_mul := by decide
  mul_one := by decide
  left_distrib := by decide
  right_distrib := by decide
  mul_comm := by decide
  zero_mul := by decide
  mul_zero := by decide
  neg_add_cancel := by decide
  nsmul := nsmulRec
  zsmul := zsmulRec

instance : Field F2 :=
  { (inferInstance : CommRing F2) with
    exists_pair_ne := ⟨F2.z, F2.o, by decide⟩
    mul_inv_cancel := by decide
    inv_zero := by decide
    nnqsmul := _
    qsmul := _ }

/-! ### Helper lemmas for the claim theorems -/

theorem trim_trim (l : List K) : trim (trim l) = trim l := by
  induction l using List.reverseRecOn with
  | nil => rfl
  | append_singleton l a ih =>
    by_cases ha : a = 0
    · subst ha
      rw [trim_concat_zero]
      exact ih
    · rw [trim_concat_ne l a ha, trim_concat_ne l a ha]

theorem validGen_natDeg (g : List K) (hg : ValidGen g) :
    natDeg g = g.length - 1 := by
  rw [natDeg, hg.1]

theorem validGen_isZero_false (g : List K) (hg : ValidGen g) :
    isZero g = false := by
  rcases Bool.eq_false_or_eq_true (isZero g) with h | h
  · exact absurd ((isZero_iff g).mp h 0) hg.2.2
  · exact h

theorem validGen_lead_ne (g : List K) (hg : ValidGen g) :
    coeff g (natDeg g) ≠ 0 :=
  leadCoeff_ne_zero g (validGen_isZero_false g hg)

theorem getD_append_lt {α : Type} (l l' : List α) (d : α) (i : ℕ)
    (h : i < l.length) :
    (l ++ l').getD i d = l.getD i d := by
  rw [List.getD_eq_getElem?_getD, List.getD_eq_getElem?_getD,
    List.getElem?_append_left h]

theorem getD_append_len {α : Type} (l l' : List α) (d : α) :
    (l ++ l').getD l.length d = l'.getD 0 d := by
  rw [List.getD_eq_getElem?_getD, List.getD_eq_getElem?_getD,
    List.getElem?_append_right (le_refl l.length)]
  simp

theorem getD_map_lt (f : ℕ → ℕ) (l : List ℕ) (i : ℕ) (h : i < l.length) :
    (l.map f).getD i 0 = f (l.getD i 0) := by
  have h' : i < (l.map f).length := by simpa using h
  rw [List.getD_eq_getElem?_getD, List.getElem?_eq_getElem h',
    List.getD_eq_getElem?_getD, List.getElem?_eq_getElem h]
  simp

theorem mem_enumBox (bs ds : List ℕ) (h : ds ∈ enumBox bs) :
    ds.length = bs.length ∧ ∀ i, i < bs.length → ds.getD i 0 ≤ bs.getD i 0 := by
  induction bs generalizing ds with
  | nil =>
    simp only [enumBox, List.mem_singleton] at h
    subst h
    exact ⟨rfl, by intro i hi; simp at hi⟩
  | cons b bs ih =>
    simp only [enumBox, List.mem_flatten, List.mem_map] at h
    obtain ⟨l, ⟨d, hd, rfl⟩, hds⟩ := h
    rw [List.mem_map] at hds
    obtain ⟨ds', hds', rfl⟩ := hds
    obtain ⟨hlen, hbnd⟩ := ih ds' hds'
    rw [List.mem_range] at hd
    refine ⟨by simp [hlen], ?_⟩
    intro i hi
    cases i with
    | zero => simpa using Nat.lt_succ_iff.mp hd
    | succ j =>
      have hj : j < bs.length := by simpa using hi
      simpa using hbnd j hj

theorem basicJParams_sound (q r : ℕ) (ks : List ℕ) (p : List ℕ × List ℕ)
    (hp : p ∈ basicJParams q r ks) :
    p.1 = ks ∧ p.2.length = ks.length + 1 ∧
      weightSum q ks p.2 = p.2.getD ks.length 0 * (q ^ r - 1) ∧
      gcdList p.2 = 1 ∧
      ∀ i, i < ks.length →
        p.2.getD i 0 ≤ (q ^ r - 1) / (q ^ Nat.gcd (ks.getD i 0) r - 1) := by
  unfold basicJParams at hp
  rw [List.mem_filterMap] at hp
  obtain ⟨ds, hds, heq⟩ := hp
  obtain ⟨hlen, hbnd⟩ := mem_enumBox _ ds hds
  rw [List.length_map] at hlen
  split_ifs at heq with hdvd hgcd
  rw [Option.some.injEq] at heq
  subst heq
  have hws : weightSum q ks (ds ++ [weightSum q ks ds / (q ^ r - 1)]) =
      weightSum q ks ds := by
    unfold weightSum
    apply Finset.sum_congr rfl
    intro i hi
    rw [Finset.mem_range] at hi
    rw [getD_append_lt ds _ 0 i (by omega)]
  refine ⟨rfl, by simp [hlen], ?_, hgcd, ?_⟩
  · have hlast : (ds ++ [weightSum q ks ds / (q ^ r - 1)]).getD ks.length 0 =
        weightSum q ks ds / (q ^ r - 1) := by
      rw [← hlen, getD_append_len]
      rfl
    dsimp only
    rw [hws, hlast, Nat.div_mul_cancel hdvd]
  · intro i hi
    dsimp only
    rw [getD_append_lt ds _ 0 i (by omega)]
    have := hbnd i (by simpa using hi)
    rwa [getD_map_lt _ _ _ (by omega)] at this

theorem pow_sub_one_dvd_pow_sub_one (q d m : ℕ) (h : d ∣ m) :
    q ^ d - 1 ∣ q ^ m - 1 := by
  obtain ⟨t, rfl⟩ := h
  have h1 := nat_sub_dvd_pow_sub_pow (q ^ d) 1 t
  simpa [← pow_mul] using h1

/-! ### The claim theorems -/

/-- C1: for every valid Drinfeld module with generator `g` and every
Ore polynomial `f`, `velu f` fails with `NotAnIsogeny` exactly when
`f = 0`, or the degree of the characteristic does not divide the
valuation of `f`, or the remainder of the right Euclidean division of
`f·g` by `f` is nonzero; when none of these holds it returns the
module whose generator is the quotient of that division. -/
theorem velu_error_iff (σ : K →+* K) (charDeg : ℕ) (g f : List K)
    (hg : ValidGen g) :
    (velu σ charDeg g f = .error .notAnIsogeny ↔
      (isZero f = true ∨ ¬ charDeg ∣ valuation f ∨
        isZero (rightQuoRem σ (oreMul σ f g) f).2 = false)) ∧
    (isZero f = false → charDeg ∣ valuation f →
      isZero (rightQuoRem σ (oreMul σ f g) f).2 = true →
      velu σ charDeg g f = .ok (rightQuoRem σ (oreMul σ f g) f).1) := by
  constructor
  · unfold velu
    split_ifs with h1 h2
    · simp only [h1, true_or, iff_true]
    · constructor
      · intro _
        rcases h2 with h2 | h2
        · exact Or.inr (Or.inl h2)
        · exact Or.inr (Or.inr h2)
      · intro _
        rfl
    · push_neg at h2
      constructor
      · intro hc
        exact absurd hc (by simp)
      · intro hc
        rcases hc with hc | hc | hc
        · exact absurd hc (by simp [h1])
        · exact absurd h2.1 hc
        · exact absurd hc h2.2
  · intro hf hdvd hrem
    unfold velu
    split_ifs with h1 h2
    · rw [h1] at hf
      exact absurd hf (by simp)
    · rcases h2 with h2 | h2
      · exact absurd hdvd h2
      · rw [hrem] at h2
        exact absurd h2 (by simp)
    · rfl

/-- C2: whenever `velu` succeeds on a valid Drinfeld module `g` with
an Ore polynomial `f`, returning the codomain generator `Q`, the
intertwining identity `f·g = Q·f` holds exactly in the Ore ring. -/
theorem velu_intertwines (σ : K →+* K) (charDeg : ℕ) (g f Q : List K)
    (hg : ValidGen g) (h : velu σ charDeg g f = .ok Q) :
    coeffEq (oreMul σ f g) (oreMul σ Q f) := by
  unfold velu at h
  by_cases h1 : isZero f = true
  · rw [if_pos h1] at h
    exact absurd h (by simp)
  rw [if_neg h1] at h
  by_cases h2 : ¬ charDeg ∣ valuation f ∨
      isZero (rightQuoRem σ (oreMul σ f g) f).2 = false
  · rw [if_pos h2] at h
    exact absurd h (by simp)
  · rw [if_neg h2] at h
    rw [Except.ok.injEq] at h
    subst h
    push_neg at h2
    have hf : isZero f = false := by
      rcases Bool.eq_false_or_eq_true (isZero f) with hc | hc
      · exact absurd hc h1
      · exact hc
    have hrem : isZero (rightQuoRem σ (oreMul σ f g) f).2 = true := by
      rcases Bool.eq_false_or_eq_true
          (isZero (rightQuoRem σ (oreMul σ f g) f).2) with hc | hc
      · exact hc
      · exact absurd hc h2.2
    obtain ⟨hc, _⟩ := rightQuoRem_spec σ (oreMul σ f g) f hf
    intro n
    rw [coeff_oreMul σ _ f]
    have hz := (isZero_iff _).mp hrem n
    have := hc n
    rw [hz, add_zero] at this
    exact this

/-- C9: for every valid Drinfeld module and integer `n`, `coefficient n`
returns the `n`-th coefficient of the generator when `0 ≤ n ≤ rank`,
and fails with the out-of-range error otherwise. -/
theorem coefficient_spec (g : List K) (hg : ValidGen g) (n : ℤ) :
    (0 ≤ n ∧ n ≤ (natDeg g : ℤ) →
      coefficient g n = .ok (coeff g n.toNat)) ∧
    (¬ (0 ≤ n ∧ n ≤ (natDeg g : ℤ)) →
      coefficient g n = .error .outOfRange) := by
  constructor
  · intro h
    simp [coefficient, h]
  · intro h
    simp [coefficient, h]

/-- C7 (amended): constructing a Drinfeld module from a coefficient
list fails with the zero-constant-term error when the first
coefficient is zero, fails with the non-positive-degree error when the
list, after the Ore ring strips its trailing zero coefficients, has
degree `< 1`, and otherwise succeeds, storing the trimmed list — a
list with zero leading coefficients is therefore not an input error
whenever its trimmed degree is at least 1. -/
theorem mk_validation_spec (gen : List K) :
    (coeff gen 0 = 0 → mkDrinfeldModule gen = .error .zeroConstant) ∧
    (coeff gen 0 ≠ 0 → natDeg gen = 0 →
      mkDrinfeldModule gen = .error .nonPositiveDegree) ∧
    (coeff gen 0 ≠ 0 → 1 ≤ natDeg gen →
      mkDrinfeldModule gen = .ok (trim gen) ∧ ValidGen (trim gen)) := by
  refine ⟨?_, ?_, ?_⟩
  · intro h
    simp [mkDrinfeldModule, h]
  · intro h h0
    simp [mkDrinfeldModule, h, h0]
  · intro h h1
    have hd : natDeg gen ≠ 0 := by omega
    refine ⟨by simp [mkDrinfeldModule, h, hd], ?_, ?_, ?_⟩
    · exact trim_trim gen
    · have hne : trim gen ≠ [] := by
        intro hc
        unfold natDeg at h1
        rw [hc] at h1
        simp at h1
      have := trim_length_eq gen hne
      omega
    · rw [coeff_trim]
      exact h

/-- C7 counterexample: over the field with two elements, the
coefficient list `[1, 1, 0]` has a zero leading coefficient, yet the
constructor accepts it and returns the trimmed rank-1 generator
`[1, 1]` instead of failing. -/
theorem mk_trailing_zero_accepted :
    mkDrinfeldModule ([1, 1, 0] : List F2) = .ok [1, 1] := by decide

/-- C5: for every valid rank-2 Drinfeld module over Fq of order `q`,
`j_invariant` with no parameter returns `g_1^(q+1) / g_2`; in
particular it returns `1` when `g_1 = g_2 = 1`. -/
theorem j_invariant_rank_two (q : ℕ) (g : List K) (hg : ValidGen g)
    (h2 : natDeg g = 2) :
    j_invariant q g .noParam true = .ok (coeff g 1 ^ (q + 1) / coeff g 2) ∧
    (coeff g 1 = 1 → coeff g 2 = 1 →
      j_invariant q g .noParam true = .ok 1) := by
  constructor
  · simp [j_invariant, h2]
  · intro ha hb
    simp [j_invariant, h2, ha, hb]

/-- C8: for every valid Drinfeld module of rank 1,
`basic_j_invariant_parameters` (default arguments) returns the empty
list: the index range `1..r-1` is empty, and the only integral point
of the resulting polytope is the origin, which the `gcd = 1` filter
rejects. -/
theorem basic_j_invariant_parameters_rank_one (q : ℕ) (g : List K)
    (hg : ValidGen g) (h1 : natDeg g = 1) :
    basic_j_invariant_parameters q g false = [] := by
  unfold basic_j_invariant_parameters basicJParams
  rw [h1]
  simp [enumBox, weightSum, gcdList, List.filterMap]

/-- C3: every pair returned by `basic_j_invariant_parameters` (default
arguments) on a valid Drinfeld module of rank `r` over Fq of order `q`
satisfies the weight-0 equation exactly, has `gcd = 1` over all its
exponents including the last, and has each box exponent bounded by
`(q^r - 1)/(q^gcd(k_i, r) - 1)`. -/
theorem basic_j_invariant_parameters_weight_zero (q : ℕ) (g : List K)
    (hq : 2 ≤ q) (hg : ValidGen g) (ks ds : List ℕ)
    (hmem : (ks, ds) ∈ basic_j_invariant_parameters q g false) :
    ds.length = ks.length + 1 ∧
    weightSum q ks ds = ds.getD ks.length 0 * (q ^ natDeg g - 1) ∧
    gcdList ds = 1 ∧
    ∀ i, i < ks.length →
      ds.getD i 0 ≤
        (q ^ natDeg g - 1) / (q ^ Nat.gcd (ks.getD i 0) (natDeg g) - 1) := by
  unfold basic_j_invariant_parameters at hmem
  have hmem' : (ks, ds) ∈
      basicJParams q (natDeg g) (List.range' 1 (natDeg g - 1)) := by
    simpa using hmem
  obtain ⟨h1, h2, h3, h4, h5⟩ :=
    basicJParams_sound q (natDeg g) (List.range' 1 (natDeg g - 1)) (ks, ds) hmem'
  dsimp only at h1 h2 h3 h4 h5
  subst h1
  exact ⟨h2, h3, h4, h5⟩

/-- C10: for a valid Drinfeld module of rank `r` over Fq of order `q`
and an integer `1 ≤ k ≤ r-1`, `j_invariant k` returns
`g_k^(d_k) / g_r^(d_r)` with `d_k = (q^r-1)/(q^gcd(k,r)-1)` and
`d_r = (q^k-1)/(q^gcd(k,r)-1)`; this equals the `j_invariant` of the
tuple parameter `((k), (d_k, d_r))`, and that pair satisfies the
weight-0 equation `d_k (q^k - 1) = d_r (q^r - 1)`. -/
theorem j_invariant_integer_parameter (q : ℕ) (g : List K) (hq : 2 ≤ q)
    (hg : ValidGen g) (k : ℕ) (hk1 : 1 ≤ k) (hkr : k < natDeg g) :
    j_invariant q g (.intParam k) true =
      .ok (coeff g k ^
          ((q ^ natDeg g - 1) / (q ^ Nat.gcd k (natDeg g) - 1)) /
        coeff g (natDeg g) ^
          ((q ^ k - 1) / (q ^ Nat.gcd k (natDeg g) - 1))) ∧
    j_invariant q g (.tupParam [k]
        [(q ^ natDeg g - 1) / (q ^ Nat.gcd k (natDeg g) - 1),
         (q ^ k - 1) / (q ^ Nat.gcd k (natDeg g) - 1)]) true =
      j_invariant q g (.intParam k) true ∧
    ((q ^ natDeg g - 1) / (q ^ Nat.gcd k (natDeg g) - 1)) * (q ^ k - 1) =
      ((q ^ k - 1) / (q ^ Nat.gcd k (natDeg g) - 1)) * (q ^ natDeg g - 1) := by
  set r := natDeg g with hrdef
  set e := q ^ Nat.gcd k r - 1 with hedef
  have hgk : Nat.gcd k r ∣ k := Nat.gcd_dvd_left k r
  have hgr : Nat.gcd k r ∣ r := Nat.gcd_dvd_right k r
  have hek : e ∣ q ^ k - 1 := pow_sub_one_dvd_pow_sub_one q _ k hgk
  have her : e ∣ q ^ r - 1 := pow_sub_one_dvd_pow_sub_one q _ r hgr
  have hepos : 0 < e := by
    have hgpos : Nat.gcd k r ≠ 0 := by
      have := Nat.gcd_pos_of_pos_left r (show 0 < k by omega)
      omega
    have h2 : 1 < q ^ Nat.gcd k r := Nat.one_lt_pow hgpos (by omega)
    omega
  obtain ⟨a, ha⟩ := her
  obtain ⟨b, hb⟩ := hek
  have hdk : (q ^ r - 1) / e = a := by
    rw [ha, Nat.mul_div_cancel_left a hepos]
  have hdr : (q ^ k - 1) / e = b := by
    rw [hb, Nat.mul_div_cancel_left b hepos]
  have hw : ((q ^ r - 1) / e) * (q ^ k - 1) =
      ((q ^ k - 1) / e) * (q ^ r - 1) := by
    rw [hdk, hdr, ha, hb]
    ring
  have hcond : ¬ (k = 0 ∨ r ≤ k) := by omega
  have hint : j_invariant q g (.intParam k) true =
      .ok (coeff g k ^ ((q ^ r - 1) / e) /
        coeff g r ^ ((q ^ k - 1) / e)) := by
    simp [j_invariant, hcond]
  have hr2 : 1 < r := by omega
  have hws : weightSum q [k] [(q ^ r - 1) / e, (q ^ k - 1) / e] =
      ((q ^ r - 1) / e) * (q ^ k - 1) := by
    simp [weightSum]
  have hcond1 : ¬¬(([k] : List ℕ).length < r ∧
      ([(q ^ r - 1) / e, (q ^ k - 1) / e] : List ℕ).length =
        ([k] : List ℕ).length + 1) :=
    not_not.mpr ⟨by simpa using hr2, by simp⟩
  have hcond2 : ¬(True ∧
      weightSum q [k] [(q ^ r - 1) / e, (q ^ k - 1) / e] ≠
        ([(q ^ r - 1) / e, (q ^ k - 1) / e] : List ℕ).getD
          ([k] : List ℕ).length 0 * (q ^ r - 1)) := by
    rintro ⟨-, hcon⟩
    apply hcon
    rw [hws]
    simpa using hw
  have htup : j_invariant q g
      (.tupParam [k] [(q ^ r - 1) / e, (q ^ k - 1) / e]) true =
      .ok (coeff g k ^ ((q ^ r - 1) / e) /
        coeff g r ^ ((q ^ k - 1) / e)) := by
    simp only [j_invariant]
    rw [← hrdef]
    rw [if_neg hcond1, if_neg hcond2]
    simp [Finset.prod_range_one]
  exact ⟨hint, by rw [hint, htup], hw⟩

/-- The zero-pattern test is reflexive. -/
theorem patternEq_refl (g : List K) : patternEq g g = true := by
  apply List.all_eq_true.mpr
  intro p hp
  rcases List.mem_iff_getElem.mp hp with ⟨i, hi, rfl⟩
  rw [List.getElem_zip]
  simp

/-- Two valid rank-1 generators always have the same zero pattern:
both coefficients of each are nonzero. -/
theorem patternEq_rank_one (g h : List K) (hg : ValidGen g)
    (hh : ValidGen h) (h1g : natDeg g = 1) (h1h : natDeg h = 1) :
    patternEq g h = true := by
  have hlg : g.length = 2 := by
    have := validGen_natDeg g hg
    have := hg.2.1
    omega
  have hlh : h.length = 2 := by
    have := validGen_natDeg h hh
    have := hh.2.1
    omega
  apply List.all_eq_true.mpr
  intro p hp
  rcases List.mem_iff_getElem.mp hp with ⟨i, hi, rfl⟩
  rw [List.getElem_zip]
  have hi2 : i < 2 := by
    rw [List.length_zip, hlg, hlh] at hi
    simpa using hi
  have hgi : g[i] ≠ 0 := by
    rw [← coeff_eq_getElem g i (by omega)]
    match i, hi2 with
    | 0, _ => exact hg.2.2
    | 1, _ =>
      have := validGen_lead_ne g hg
      rwa [h1g] at this
  have hhi : h[i] ≠ 0 := by
    rw [← coeff_eq_getElem h i (by omega)]
    match i, hi2 with
    | 0, _ => exact hh.2.2
    | 1, _ =>
      have := validGen_lead_ne h hh
      rwa [h1h] at this
  simp [hgi, hhi]

/-- C6: for valid Drinfeld modules `g` and `h`: `is_isomorphic g g` is
true; it is false when the ranks differ; true when both ranks are 1;
false when the zero patterns of the generators differ; and in the
remaining case it is true exactly when every nonzero basic j-invariant
of `g` equals the j-invariant of `h` at the same parameter. -/
theorem is_isomorphic_spec (q : ℕ) (g h : List K)
    (hg : ValidGen g) (hh : ValidGen h) :
    (is_isomorphic q g g = true) ∧
    (natDeg g ≠ natDeg h → is_isomorphic q g h = false) ∧
    (natDeg g = 1 → natDeg h = 1 → is_isomorphic q g h = true) ∧
    (patternEq g h = false → is_isomorphic q g h = false) ∧
    (g ≠ h → natDeg g = natDeg h → natDeg g ≠ 1 → patternEq g h = true →
      (is_isomorphic q g h = true ↔
        ∀ p ∈ basic_j_invariant_parameters q g true,
          j_invariant q g (.tupParam p.1 p.2) false =
            j_invariant q h (.tupParam p.1 p.2) false)) := by
  refine ⟨?_, ?_, ?_, ?_, ?_⟩
  · simp [is_isomorphic]
  · intro hr
    have hne : g ≠ h := fun hc => hr (by rw [hc])
    simp [is_isomorphic, hne, hr]
  · intro h1g h1h
    by_cases hgh : g = h
    · simp [is_isomorphic, hgh]
    · simp [is_isomorphic, hgh, h1g, h1h]
  · intro hpat
    have hne : g ≠ h := by
      intro hc
      subst hc
      rw [patternEq_refl g] at hpat
      simp at hpat
    by_cases hr : natDeg g = natDeg h
    · by_cases h1 : natDeg g = 1
      · have h1h : natDeg h = 1 := by rw [← hr, h1]
        rw [patternEq_rank_one g h hg hh h1 h1h] at hpat
        simp at hpat
      · have h1h : ¬ natDeg h = 1 := by
          rw [hr] at h1
          exact h1
        simp [is_isomorphic, hne, hr, h1, h1h, hpat]
    · simp [is_isomorphic, hne, hr]
  · intro hne hr h1 hpat
    rw [is_isomorphic, if_neg hne, if_neg (by simpa using hr),
      if_neg h1, if_neg (by simp [hpat])]
    rw [List.all_eq_true]
    constructor
    · intro hall p hp
      have := hall p hp
      rwa [decide_eq_true_eq] at this
    · intro hall p hp
      rw [decide_eq_true_eq]
      exact hall p hp

/-! ### Height: the provable parts of its contract

The generic-characteristic case fails with the dedicated error, and
whenever the division `valuation / deg` is exact — which holds for
every valid module by Drinfeld theory — the returned value is the
exact quotient.  The source computes the floor `//` and has no
assertion path for an inexact quotient. -/

theorem height_generic_error (σ : K →+* K) (g : List K) :
    height σ g none = .error .heightUndefined := rfl

theorem height_exact_division (σ : K →+* K) (g p : List K)
    (hdvd : natDeg p ∣ valuation (phiEval σ g p)) :
    height σ g (some p) = .ok (valuation (phiEval σ g p) / natDeg p) ∧
      valuation (phiEval σ g p) / natDeg p * natDeg p =
        valuation (phiEval σ g p) :=
  ⟨rfl, Nat.div_mul_cancel hdvd⟩

theorem height_exact_division_witness :
    (natDeg ([1, 1] : List F2) ∣
      valuation (phiEval (RingHom.id F2) [1, 1] [1, 1])) ∧
    height (RingHom.id F2) [1, 1] (some [1, 1]) = .ok 1 ∧
    (1 : ℕ) * natDeg ([1, 1] : List F2) =
      valuation (phiEval (RingHom.id F2) [1, 1] [1, 1]) :=
  ⟨by decide,
   (height_exact_division (RingHom.id F2) [1, 1] [1, 1] (by decide)).1,
   (height_exact_division (RingHom.id F2) [1, 1] [1, 1] (by decide)).2⟩

/-! ### Witnesses: the claim theorems applied at concrete modules -/

/-- Witness for C1 at the rank-1 module `T ↦ 1 + τ` over `F2` with
candidate isogeny `τ` and characteristic degree 1. -/
theorem velu_error_iff_witness :
    (velu (RingHom.id F2) 1 [1, 1] [0, 1] = .error .notAnIsogeny ↔
      (isZero ([0, 1] : List F2) = true ∨
        ¬ (1 : ℕ) ∣ valuation ([0, 1] : List F2) ∨
        isZero (rightQuoRem (RingHom.id F2)
          (oreMul (RingHom.id F2) [0, 1] [1, 1]) [0, 1]).2 = false)) ∧
    velu (RingHom.id F2) 1 [1, 1] [0, 1] =
      .ok (rightQuoRem (RingHom.id F2)
        (oreMul (RingHom.id F2) [0, 1] [1, 1]) [0, 1]).1 :=
  ⟨(velu_error_iff (RingHom.id F2) 1 [1, 1] [0, 1] (by decide)).1,
   (velu_error_iff (RingHom.id F2) 1 [1, 1] [0, 1] (by decide)).2
     (by decide) (by decide) (by decide)⟩

/-- Witness for C2: the same successful `velu` run, with the
intertwining identity at its concrete output `1 + τ`. -/
theorem velu_intertwines_witness :
    velu (RingHom.id F2) 1 [1, 1] [0, 1] = .ok [1, 1] ∧
    coeffEq (oreMul (RingHom.id F2) [0, 1] [1, 1])
      (oreMul (RingHom.id F2) [1, 1] [0, 1]) :=
  ⟨by decide,
   velu_intertwines (RingHom.id F2) 1 [1, 1] [0, 1] [1, 1]
     (by decide) (by decide)⟩

/-- Witness for C3 at the rank-2 module `[1, 1, 1]` over `F2`, whose
single basic parameter is `((1), (3, 1))`. -/
theorem basic_j_invariant_parameters_weight_zero_witness :
    (([1], [3, 1]) ∈
      basic_j_invariant_parameters 2 ([1, 1, 1] : List F2) false) ∧
    weightSum 2 [1] [3, 1] = 1 * (2 ^ 2 - 1) ∧
    gcdList [3, 1] = 1 ∧
    ([3, 1] : List ℕ).getD 0 0 ≤ (2 ^ 2 - 1) / (2 ^ Nat.gcd 1 2 - 1) :=
  ⟨by decide,
   (basic_j_invariant_parameters_weight_zero 2 ([1, 1, 1] : List F2)
     (by decide) (by decide) [1] [3, 1] (by decide)).2.1,
   (basic_j_invariant_parameters_weight_zero 2 ([1, 1, 1] : List F2)
     (by decide) (by decide) [1] [3, 1] (by decide)).2.2.1,
   (basic_j_invariant_parameters_weight_zero 2 ([1, 1, 1] : List F2)
     (by decide) (by decide) [1] [3, 1] (by decide)).2.2.2 0 (by decide)⟩

/-- Witness for C5: the module `[1, 1, 1]` over `F2` has `j`-invariant
`1^(2+1)/1 = 1`. -/
theorem j_invariant_rank_two_witness :
    ValidGen ([1, 1, 1] : List F2) ∧
    j_invariant 2 ([1, 1, 1] : List F2) .noParam true = .ok 1 :=
  ⟨by decide,
   (j_invariant_rank_two 2 [1, 1, 1] (by decide) (by decide)).2
     (by decide) (by decide)⟩

/-- Witness for C6: reflexivity at `[1, 1, 1]` and the rank test
against the rank-1 module `[1, 1]`. -/
theorem is_isomorphic_spec_witness :
    is_isomorphic 2 ([1, 1, 1] : List F2) [1, 1, 1] = true ∧
    is_isomorphic 2 ([1, 1, 1] : List F2) [1, 1] = false :=
  ⟨(is_isomorphic_spec 2 [1, 1, 1] [1, 1] (by decide) (by decide)).1,
   (is_isomorphic_spec 2 [1, 1, 1] [1, 1] (by decide) (by decide)).2.1
     (by decide)⟩

/-- Witness for C7 (amended): the list `[1, 1, 0]` with a zero leading
coefficient is accepted, its trailing zero trimmed away. -/
theorem mk_validation_spec_witness :
    coeff ([1, 1, 0] : List F2) 0 ≠ 0 ∧
    1 ≤ natDeg ([1, 1, 0] : List F2) ∧
    mkDrinfeldModule ([1, 1, 0] : List F2) = .ok [1, 1] ∧
    ValidGen ([1, 1] : List F2) :=
  ⟨by decide, by decide,
   ((mk_validation_spec ([1, 1, 0] : List F2)).2.2 (by decide) (by decide)).1,
   ((mk_validation_spec ([1, 1, 0] : List F2)).2.2 (by decide) (by decide)).2⟩

/-- Witness for C8: the rank-1 module `[1, 1]` has no basic
`j`-invariant parameters. -/
theorem basic_j_invariant_parameters_rank_one_witness :
    ValidGen ([1, 1] : List F2) ∧
    basic_j_invariant_parameters 7 ([1, 1] : List F2) false = [] :=
  ⟨by decide,
   basic_j_invariant_parameters_rank_one 7 [1, 1] (by decide) (by decide)⟩

/-- Witness for C9: coefficient access in and out of range on
`[1, 1, 1]`. -/
theorem coefficient_spec_witness :
    coefficient ([1, 1, 1] : List F2) 1 = .ok 1 ∧
    coefficient ([1, 1, 1] : List F2) 5 = .error .outOfRange :=
  ⟨(coefficient_spec ([1, 1, 1] : List F2) (by decide) 1).1
     ⟨by decide, by decide⟩,
   (coefficient_spec ([1, 1, 1] : List F2) (by decide) 5).2 (by decide)⟩

/-- Witness for C10 at `k = 1` on the module `[1, 1, 1]` over `F2`:
`d_k = 3`, `d_r = 1`. -/
theorem j_invariant_integer_parameter_witness :
    j_invariant 2 ([1, 1, 1] : List F2) (.intParam 1) true = .ok 1 ∧
    j_invariant 2 ([1, 1, 1] : List F2) (.tupParam [1] [3, 1]) true =
      j_invariant 2 ([1, 1, 1] : List F2) (.intParam 1) true ∧
    3 * (2 ^ 1 - 1) = 1 * (2 ^ 2 - 1) :=
  ⟨(j_invariant_integer_parameter 2 ([1, 1, 1] : List F2) (by decide)
      (by decide) 1 (by decide) (by decide)).1,
   (j_invariant_integer_parameter 2 ([1, 1, 1] : List F2) (by decide)
      (by decide) 1 (by decide) (by decide)).2.1,
   (j_invariant_integer_parameter 2 ([1, 1, 1] : List F2) (by decide)
      (by decide) 1 (by decide) (by decide)).2.2⟩

end DrinfeldSpec
